import Mathlib

/-!
Shallow embedding of the bitonic sorter in `src/fourth.rs` (together with the
`SortOrder` enum of `src/lib.rs`), and proofs about it.

Slices `&mut [T]` are modelled as `List α`; in-place mutation is modelled by
returning the new contents.  `rayon::join` runs its two closures on the two
disjoint halves produced by `split_at_mut` and blocks until both finish, so its
observable effect on the slice is exactly that of running the two calls one
after the other; the parallel branch is therefore embedded as the sequential
composition of the two half-computations (the branch structure of the source is
kept so that the threshold policy remains visible).
-/

namespace Fourth

/-- `enum SortOrder { Ascending, Descending }` from `src/lib.rs`. -/
inductive SortOrder where
  | Ascending : SortOrder
  | Descending : SortOrder

/-- `const PARALLEL_THRESHOLD: usize = 4096;` from `src/fourth.rs`. -/
def PARALLEL_THRESHOLD : Nat := 4096

/-- Rust's `usize::count_ones`: the number of ones in the binary
representation of `n`. -/
def count_ones (n : Nat) : Nat :=
  if n = 0 then 0 else n % 2 + count_ones (n / 2)
decreasing_by exact Nat.div_lt_self (Nat.pos_of_ne_zero (by assumption)) (by decide)

/-- Rust's `usize::is_power_of_two`, defined as `count_ones(self) == 1`.
In particular `is_power_of_two 0 = false`. -/
def is_power_of_two (n : Nat) : Bool :=
  count_ones n == 1

/-- One iteration of the `for i in 0..mid_point` loop of `compare_and_swap`:
compare `x[i]` with `x[mid_point + i]` and swap them when the comparator
returns `swap_condition`.  Out-of-range indices leave the list unchanged
(they never occur on the calls the program makes). -/
def cas_step (comparator : α → α → Ordering) (swap_condition : Ordering)
    (mid_point i : Nat) (x : List α) : List α :=
  match x[i]?, x[mid_point + i]? with
  | some a, some b =>
      if comparator a b = swap_condition then (x.set i b).set (mid_point + i) a else x
  | _, _ => x

/-- The `for i in 0..n` loop of `compare_and_swap`, iterations performed in
increasing order of `i` (`cas_loop c s m (n+1)` performs iteration `n` last). -/
def cas_loop (comparator : α → α → Ordering) (swap_condition : Ordering)
    (mid_point : Nat) : Nat → List α → List α
  | 0, x => x
  | n + 1, x =>
      cas_step comparator swap_condition mid_point n
        (cas_loop comparator swap_condition mid_point n x)

/-- `compare_and_swap` from `src/fourth.rs`. -/
def compare_and_swap (x : List α) (forward : Bool) (comparator : α → α → Ordering) :
    List α :=
  let swap_condition := if forward then Ordering.gt else Ordering.lt
  let mid_point := x.length / 2
  cas_loop comparator swap_condition mid_point mid_point x

theorem length_cas_step (c : α → α → Ordering) (s : Ordering) (m i : Nat) (x : List α) :
    (cas_step c s m i x).length = x.length := by
  unfold cas_step
  split
  · split <;> simp
  · rfl

theorem length_cas_loop (c : α → α → Ordering) (s : Ordering) (m : Nat) :
    ∀ (n : Nat) (x : List α), (cas_loop c s m n x).length = x.length
  | 0, _ => rfl
  | n + 1, x => by
      rw [cas_loop, length_cas_step, length_cas_loop c s m n x]

theorem length_compare_and_swap (x : List α) (forward : Bool)
    (comparator : α → α → Ordering) :
    (compare_and_swap x forward comparator).length = x.length := by
  unfold compare_and_swap
  exact length_cas_loop ..

/-- `sub_sort` from `src/fourth.rs` (the bitonic merger), with the
parameter name `compartor` as in the source.  Both branches of the threshold
test embed to the same pure computation (see the module docstring). -/
def sub_sort (x : List α) (forward : Bool) (compartor : α → α → Ordering) : List α :=
  if 1 < x.length then
    let y := compare_and_swap x forward compartor
    let mid_point := x.length / 2
    if mid_point ≥ PARALLEL_THRESHOLD then
      sub_sort (y.take mid_point) forward compartor ++
        sub_sort (y.drop mid_point) forward compartor
    else
      sub_sort (y.take mid_point) forward compartor ++
        sub_sort (y.drop mid_point) forward compartor
  else x
termination_by x.length
decreasing_by
  all_goals
    simp only [y, mid_point, List.length_take, List.length_drop,
      length_compare_and_swap]
  all_goals omega

/-- `do_sort` from `src/fourth.rs` (the bitonic builder). -/
def do_sort (x : List α) (forward : Bool) (comparator : α → α → Ordering) : List α :=
  if 1 < x.length then
    let mid_point := x.length / 2
    let z :=
      if mid_point ≥ PARALLEL_THRESHOLD then
        do_sort (x.take mid_point) true comparator ++
          do_sort (x.drop mid_point) false comparator
      else
        do_sort (x.take mid_point) true comparator ++
          do_sort (x.drop mid_point) false comparator
    sub_sort z forward comparator
  else x
termination_by x.length
decreasing_by
  all_goals simp only [mid_point, List.length_take, List.length_drop]
  all_goals omega

/-- `sort_by` from `src/fourth.rs`: the result models the pair
(return value, final contents of the slice). -/
def sort_by (x : List α) (comparator : α → α → Ordering) :
    Except String Unit × List α :=
  if is_power_of_two x.length then
    (Except.ok (), do_sort x true comparator)
  else
    (Except.error
      ("The length of x is not a power of two. (x.len(): " ++ toString x.length ++ ")"),
      x)

/-- `sort` from `src/fourth.rs`: builds the comparator from the element
type's total order (`a.cmp(b)` resp. `b.cmp(a)`) and delegates to `sort_by`. -/
def sort [LinearOrder α] (x : List α) (order : SortOrder) :
    Except String Unit × List α :=
  match order with
  | SortOrder.Ascending => sort_by x (fun a b => compare a b)
  | SortOrder.Descending => sort_by x (fun a b => compare b a)


theorem sub_sort_of_le {x : List α} (h : ¬ 1 < x.length) (f : Bool) (c : α → α → Ordering) :
    sub_sort x f c = x := by
  rw [sub_sort, if_neg h]

theorem sub_sort_of_lt {x : List α} (h : 1 < x.length) (f : Bool) (c : α → α → Ordering) :
    sub_sort x f c =
      sub_sort ((compare_and_swap x f c).take (x.length / 2)) f c ++
        sub_sort ((compare_and_swap x f c).drop (x.length / 2)) f c := by
  rw [sub_sort, if_pos h]
  simp only [ite_self]

theorem do_sort_of_le {x : List α} (h : ¬ 1 < x.length) (f : Bool) (c : α → α → Ordering) :
    do_sort x f c = x := by
  rw [do_sort, if_neg h]

theorem do_sort_of_lt {x : List α} (h : 1 < x.length) (f : Bool) (c : α → α → Ordering) :
    do_sort x f c =
      sub_sort (do_sort (x.take (x.length / 2)) true c ++
        do_sort (x.drop (x.length / 2)) false c) f c := by
  rw [do_sort, if_pos h]
  simp only [ite_self]

/-- Pointwise description of the compare-and-swap loop: after the first `n`
iterations, position `j < n` holds the conditionally-swapped first component of
the pair `(x[j], x[m+j])`, position `m + j` for `j < n` holds its second
component, and every other position still holds its original element. -/
theorem cas_loop_getElem? (c : α → α → Ordering) (s : Ordering) {m : Nat} {x : List α} :
    ∀ (n : Nat), n ≤ m → m + n ≤ x.length → ∀ (j : Nat),
      (cas_loop c s m n x)[j]? =
        if j < n then
          x[j]?.bind fun a => x[m + j]?.map fun b => if c a b = s then b else a
        else if m ≤ j ∧ j < m + n then
          x[j - m]?.bind fun a => x[j]?.map fun b => if c a b = s then a else b
        else x[j]?
  | 0, _, _, j => by
      have e1 : ¬ j < 0 := by omega
      have e2 : ¬ (m ≤ j ∧ j < m + 0) := by omega
      rw [cas_loop, if_neg e1, if_neg e2]
  | n + 1, hn, hm, j => by
      have hn' : n ≤ m := by omega
      have hm' : m + n ≤ x.length := by omega
      have ih := cas_loop_getElem? c s n hn' hm'
      set y := cas_loop c s m n x with hy
      have hylen : y.length = x.length := length_cas_loop ..
      have hyn : y[n]? = x[n]? := by
        have e1 : ¬ n < n := by omega
        have e2 : ¬ (m ≤ n ∧ n < m + n) := by omega
        rw [ih n, if_neg e1, if_neg e2]
      have hymn : y[m + n]? = x[m + n]? := by
        have e1 : ¬ m + n < n := by omega
        have e2 : ¬ (m ≤ m + n ∧ m + n < m + n) := by omega
        rw [ih (m + n), if_neg e1, if_neg e2]
      obtain ⟨a, ha⟩ : ∃ a, x[n]? = some a := ⟨_, List.getElem?_eq_getElem (by omega)⟩
      obtain ⟨b, hb⟩ : ∃ b, x[m + n]? = some b :=
        ⟨_, List.getElem?_eq_getElem (by omega)⟩
      rw [cas_loop, ← hy, cas_step, hyn, hymn, ha, hb]
      by_cases hj : j = n
      · rw [hj]
        have e1 : n < n + 1 := by omega
        rw [if_pos e1, ha, hb]
        simp only [Option.some_bind, Option.map_some']
        by_cases hc : c a b = s
        · rw [if_pos hc, if_pos hc, List.getElem?_set_ne (by omega),
            List.getElem?_set_self (by rw [hylen]; omega)]
        · rw [if_neg hc, if_neg hc, hyn, ha]
      · by_cases hjm : j = m + n
        · rw [hjm]
          have e1 : ¬ m + n < n + 1 := by omega
          have e2 : m ≤ m + n ∧ m + n < m + (n + 1) := by omega
          have e3 : m + n - m = n := by omega
          rw [if_neg e1, if_pos e2, e3, ha, hb]
          simp only [Option.some_bind, Option.map_some']
          by_cases hc : c a b = s
          · rw [if_pos hc, if_pos hc,
              List.getElem?_set_self (by rw [List.length_set, hylen]; omega)]
          · rw [if_neg hc, if_neg hc, hymn, hb]
        · have hLHS : (if c a b = s then (y.set n b).set (m + n) a else y)[j]? = y[j]? := by
            by_cases hc : c a b = s
            · rw [if_pos hc, List.getElem?_set_ne (by omega), List.getElem?_set_ne (by omega)]
            · rw [if_neg hc]
          rw [hLHS, ih j]
          by_cases h1 : j < n
          · have e1 : j < n + 1 := by omega
            rw [if_pos h1, if_pos e1]
          · have e1 : ¬ j < n + 1 := by omega
            rw [if_neg h1, if_neg e1]
            by_cases h2 : m ≤ j ∧ j < m + n
            · have e2 : m ≤ j ∧ j < m + (n + 1) := by omega
              rw [if_pos h2, if_pos e2]
            · have e2 : ¬ (m ≤ j ∧ j < m + (n + 1)) := by omega
              rw [if_neg h2, if_neg e2]


/-- The element left in the lower-half position by one compare-and-swap pair. -/
def cas_fst (c : α → α → Ordering) (s : Ordering) (a b : α) : α :=
  if c a b = s then b else a

/-- The element left in the upper-half position by one compare-and-swap pair. -/
def cas_snd (c : α → α → Ordering) (s : Ordering) (a b : α) : α :=
  if c a b = s then a else b

/-- The `swap_condition` value computed at the top of `compare_and_swap`. -/
def swap_condition (forward : Bool) : Ordering :=
  if forward then Ordering.gt else Ordering.lt

theorem compare_and_swap_def (x : List α) (f : Bool) (c : α → α → Ordering) :
    compare_and_swap x f c =
      cas_loop c (swap_condition f) (x.length / 2) (x.length / 2) x := rfl

/-- On a list split into two halves of equal length, `compare_and_swap` acts as
the pairwise conditional exchange of the two halves. -/
theorem compare_and_swap_append {a b : List α} (h : a.length = b.length)
    (f : Bool) (c : α → α → Ordering) :
    compare_and_swap (a ++ b) f c =
      List.zipWith (cas_fst c (swap_condition f)) a b ++
        List.zipWith (cas_snd c (swap_condition f)) a b := by
  apply List.ext_getElem?
  intro j
  have hlen : (a ++ b).length = a.length + a.length := by simp [h]
  have hmid : (a ++ b).length / 2 = a.length := by omega
  rw [compare_and_swap_def, hmid, cas_loop_getElem? _ _ _ le_rfl (by omega) j]
  have hz1 : (List.zipWith (cas_fst c (swap_condition f)) a b).length = a.length := by
    rw [List.length_zipWith]; omega
  by_cases h1 : j < a.length
  · have e1 : (a ++ b)[j]? = a[j]? := List.getElem?_append_left h1
    have e2 : (a ++ b)[a.length + j]? = b[j]? := by
      rw [List.getElem?_append_right (by omega)]
      congr 1
      omega
    obtain ⟨av, hav⟩ : ∃ v, a[j]? = some v := ⟨_, List.getElem?_eq_getElem h1⟩
    obtain ⟨bv, hbv⟩ : ∃ v, b[j]? = some v :=
      ⟨_, List.getElem?_eq_getElem (by omega)⟩
    rw [if_pos h1, e1, e2, hav, hbv]
    simp only [Option.some_bind, Option.map_some']
    rw [List.getElem?_append_left (by omega), List.getElem?_zipWith, hav, hbv]
    rfl
  · by_cases h2 : j < a.length + a.length
    · have e0 : ¬ j < a.length := h1
      have e3 : a.length ≤ j ∧ j < a.length + j.succ := by omega
      have e1 : (a ++ b)[j - a.length]? = a[j - a.length]? :=
        List.getElem?_append_left (by omega)
      have e2 : (a ++ b)[j]? = b[j - a.length]? := by
        rw [List.getElem?_append_right (by omega)]
      obtain ⟨av, hav⟩ : ∃ v, a[j - a.length]? = some v :=
        ⟨_, List.getElem?_eq_getElem (by omega)⟩
      obtain ⟨bv, hbv⟩ : ∃ v, b[j - a.length]? = some v :=
        ⟨_, List.getElem?_eq_getElem (by omega)⟩
      have e4 : a.length ≤ j ∧ j < a.length + a.length := by omega
      rw [if_neg e0, if_pos e4, e1, e2, hav, hbv]
      simp only [Option.some_bind, Option.map_some']
      rw [List.getElem?_append_right (by omega), List.getElem?_zipWith, hz1, hav, hbv]
      rfl
    · have e0 : ¬ j < a.length := h1
      have e4 : ¬ (a.length ≤ j ∧ j < a.length + a.length) := by omega
      rw [if_neg e0, if_neg e4, List.getElem?_eq_none (by omega),
        List.getElem?_eq_none (by rw [List.length_append, hz1, List.length_zipWith]; omega)]

/-- `compare_and_swap` on an even-length list, stated with `take`/`drop`. -/
theorem compare_and_swap_take_drop {x : List α} {m : Nat} (hx : x.length = 2 * m)
    (f : Bool) (c : α → α → Ordering) :
    compare_and_swap x f c =
      List.zipWith (cas_fst c (swap_condition f)) (x.take m) (x.drop m) ++
        List.zipWith (cas_snd c (swap_condition f)) (x.take m) (x.drop m) := by
  conv_lhs => rw [← List.take_append_drop m x]
  rw [compare_and_swap_append (by simp; omega) f c]

/-- `sub_sort` on an even-length list `≥ 2`: one pairwise exchange pass, then
the two halves are merged recursively with the same direction. -/
theorem sub_sort_eq_halves {x : List α} {m : Nat} (hm : 0 < m) (hx : x.length = 2 * m)
    (f : Bool) (c : α → α → Ordering) :
    sub_sort x f c =
      sub_sort (List.zipWith (cas_fst c (swap_condition f)) (x.take m) (x.drop m)) f c ++
        sub_sort (List.zipWith (cas_snd c (swap_condition f)) (x.take m) (x.drop m)) f c := by
  have h1 : 1 < x.length := by omega
  have hz1 : (List.zipWith (cas_fst c (swap_condition f)) (x.take m) (x.drop m)).length = m := by
    rw [List.length_zipWith, List.length_take, List.length_drop]; omega
  rw [sub_sort_of_lt h1 f c, compare_and_swap_take_drop hx f c]
  have hmid : x.length / 2 = m := by omega
  rw [hmid, List.take_left' hz1, List.drop_left' hz1]


theorem length_sub_sort (x : List α) (f : Bool) (c : α → α → Ordering) :
    (sub_sort x f c).length = x.length := by
  by_cases h : 1 < x.length
  · rw [sub_sort_of_lt h, List.length_append, length_sub_sort _ f c, length_sub_sort _ f c,
      List.length_take, List.length_drop, length_compare_and_swap]
    omega
  · rw [sub_sort_of_le h]
termination_by x.length
decreasing_by
  all_goals simp only [List.length_take, List.length_drop, length_compare_and_swap]
  all_goals omega

theorem length_do_sort (x : List α) (f : Bool) (c : α → α → Ordering) :
    (do_sort x f c).length = x.length := by
  by_cases h : 1 < x.length
  · rw [do_sort_of_lt h, length_sub_sort, List.length_append,
      length_do_sort _ true c, length_do_sort _ false c,
      List.length_take, List.length_drop]
    omega
  · rw [do_sort_of_le h]
termination_by x.length
decreasing_by
  all_goals simp only [List.length_take, List.length_drop]
  all_goals omega

/-- The fully sequential embedding of the merger: the threshold policy is
removed and the two recursive merges always run one after the other. -/
def sub_sort_seq (x : List α) (forward : Bool) (compartor : α → α → Ordering) : List α :=
  if 1 < x.length then
    let y := compare_and_swap x forward compartor
    let mid_point := x.length / 2
    sub_sort_seq (y.take mid_point) forward compartor ++
      sub_sort_seq (y.drop mid_point) forward compartor
  else x
termination_by x.length
decreasing_by
  all_goals
    simp only [y, mid_point, List.length_take, List.length_drop, length_compare_and_swap]
  all_goals omega

/-- The fully sequential embedding of the builder. -/
def do_sort_seq (x : List α) (forward : Bool) (comparator : α → α → Ordering) : List α :=
  if 1 < x.length then
    let mid_point := x.length / 2
    sub_sort_seq (do_sort_seq (x.take mid_point) true comparator ++
      do_sort_seq (x.drop mid_point) false comparator) forward comparator
  else x
termination_by x.length
decreasing_by
  all_goals simp only [List.length_take, List.length_drop]
  all_goals omega

theorem sub_sort_eq_seq (x : List α) (f : Bool) (c : α → α → Ordering) :
    sub_sort x f c = sub_sort_seq x f c := by
  by_cases h : 1 < x.length
  · rw [sub_sort_of_lt h, sub_sort_seq, if_pos h,
      sub_sort_eq_seq _ f c, sub_sort_eq_seq _ f c]
  · rw [sub_sort_of_le h, sub_sort_seq, if_neg h]
termination_by x.length
decreasing_by
  all_goals simp only [List.length_take, List.length_drop, length_compare_and_swap]
  all_goals omega

theorem do_sort_eq_seq (x : List α) (f : Bool) (c : α → α → Ordering) :
    do_sort x f c = do_sort_seq x f c := by
  by_cases h : 1 < x.length
  · rw [do_sort_of_lt h, do_sort_seq, if_pos h,
      do_sort_eq_seq _ true c, do_sort_eq_seq _ false c, sub_sort_eq_seq]
  · rw [do_sort_of_le h, do_sort_seq, if_neg h]
termination_by x.length
decreasing_by
  all_goals simp only [List.length_take, List.length_drop]
  all_goals omega

/-- One compare-and-swap pass is a permutation: each pair either stays or is
exchanged. -/
theorem zipWith_cas_perm (c : α → α → Ordering) (s : Ordering) :
    ∀ (a b : List α), a.length = b.length →
      (List.zipWith (cas_fst c s) a b ++ List.zipWith (cas_snd c s) a b).Perm (a ++ b)
  | [], b, h => by
      have : b = [] := by
        cases b
        · rfl
        · simp at h
      simp [this]
  | a :: as, [], h => by simp at h
  | a :: as, b :: bs, h => by
      have hlen : as.length = bs.length := by simpa using h
      have ih := zipWith_cas_perm c s as bs hlen
      simp only [List.zipWith_cons_cons, List.cons_append]
      have s1 : (cas_fst c s a b :: (List.zipWith (cas_fst c s) as bs ++
            cas_snd c s a b :: List.zipWith (cas_snd c s) as bs)).Perm
          (cas_fst c s a b :: cas_snd c s a b ::
            (List.zipWith (cas_fst c s) as bs ++ List.zipWith (cas_snd c s) as bs)) :=
        List.Perm.cons _ List.perm_middle
      have s2 := List.Perm.cons (cas_fst c s a b) (List.Perm.cons (cas_snd c s a b) ih)
      have s3 : (cas_fst c s a b :: cas_snd c s a b :: (as ++ bs)).Perm
          (a :: b :: (as ++ bs)) := by
        by_cases hc : c a b = s
        · simp only [cas_fst, cas_snd, if_pos hc]
          exact List.Perm.swap _ _ _
        · simp only [cas_fst, cas_snd, if_neg hc]
          exact List.Perm.refl _
      have s4 : (a :: b :: (as ++ bs)).Perm (a :: (as ++ b :: bs)) :=
        List.Perm.cons _ List.perm_middle.symm
      exact ((s1.trans s2).trans s3).trans s4

/-- `compare_and_swap` on an even-length list is a permutation. -/
theorem compare_and_swap_perm {x : List α} {m : Nat} (hx : x.length = 2 * m)
    (f : Bool) (c : α → α → Ordering) :
    (compare_and_swap x f c).Perm x := by
  rw [compare_and_swap_take_drop hx f c]
  have h := zipWith_cas_perm c (swap_condition f) (x.take m) (x.drop m)
    (by rw [List.length_take, List.length_drop]; omega)
  rw [List.take_append_drop] at h
  exact h

/-- `sub_sort` on a power-of-two-length list is a permutation, for every
comparator. -/
theorem sub_sort_perm (c : α → α → Ordering) (f : Bool) :
    ∀ (k : Nat) (x : List α), x.length = 2 ^ k → (sub_sort x f c).Perm x
  | 0, x, hx => by
      rw [sub_sort_of_le (by omega)]
  | k + 1, x, hx => by
      have hm : 0 < 2 ^ k := Nat.pos_pow_of_pos k (by decide)
      have hx' : x.length = 2 * 2 ^ k := by rw [hx]; ring
      rw [sub_sort_eq_halves hm hx' f c]
      have hz1 : (List.zipWith (cas_fst c (swap_condition f))
          (x.take (2 ^ k)) (x.drop (2 ^ k))).length = 2 ^ k := by
        rw [List.length_zipWith, List.length_take, List.length_drop]; omega
      have hz2 : (List.zipWith (cas_snd c (swap_condition f))
          (x.take (2 ^ k)) (x.drop (2 ^ k))).length = 2 ^ k := by
        rw [List.length_zipWith, List.length_take, List.length_drop]; omega
      have p1 := sub_sort_perm c f k _ hz1
      have p2 := sub_sort_perm c f k _ hz2
      have pz := zipWith_cas_perm c (swap_condition f) (x.take (2 ^ k)) (x.drop (2 ^ k))
        (by rw [List.length_take, List.length_drop]; omega)
      rw [List.take_append_drop] at pz
      exact ((p1.append p2).trans pz)

/-- `do_sort` on a power-of-two-length list is a permutation, for every
comparator. -/
theorem do_sort_perm (c : α → α → Ordering) (f : Bool) :
    ∀ (k : Nat) (x : List α), x.length = 2 ^ k → (do_sort x f c).Perm x
  | 0, x, hx => by
      rw [do_sort_of_le (by omega)]
  | k + 1, x, hx => by
      have hm : 0 < 2 ^ k := Nat.pos_pow_of_pos k (by decide)
      have h1 : 1 < x.length := by rw [hx]; have := hm; omega
      have hmid : x.length / 2 = 2 ^ k := by rw [hx]; omega
      rw [do_sort_of_lt h1, hmid]
      have htk : (x.take (2 ^ k)).length = 2 ^ k := by
        rw [List.length_take]; omega
      have hdr : (x.drop (2 ^ k)).length = 2 ^ k := by
        rw [List.length_drop, hx]; omega
      have pA := do_sort_perm c true k _ htk
      have pB := do_sort_perm c false k _ hdr
      have hlen : (do_sort (x.take (2 ^ k)) true c ++ do_sort (x.drop (2 ^ k)) false c).length
          = 2 ^ (k + 1) := by
        rw [List.length_append, length_do_sort, length_do_sort, htk, hdr]; ring
      have ps := sub_sort_perm c f (k + 1) _ hlen
      refine ps.trans ?_
      have := pA.append pB
      rw [List.take_append_drop] at this
      exact this


/-- The comparator of the linear order `false < true` on `Bool`, used as the
image of monotone 0-1 maps in the zero-one-principle arguments below. -/
def bcmp : Bool → Bool → Ordering
  | false, false => Ordering.eq
  | false, true => Ordering.lt
  | true, false => Ordering.gt
  | true, true => Ordering.eq

theorem cas_fst_bcmp_gt : cas_fst bcmp Ordering.gt = and := by
  funext a b
  cases a <;> cases b <;> rfl

theorem cas_snd_bcmp_gt : cas_snd bcmp Ordering.gt = or := by
  funext a b
  cases a <;> cases b <;> rfl

theorem cas_fst_bcmp_lt : cas_fst bcmp Ordering.lt = or := by
  funext a b
  cases a <;> cases b <;> rfl

theorem cas_snd_bcmp_lt : cas_snd bcmp Ordering.lt = and := by
  funext a b
  cases a <;> cases b <;> rfl

theorem swap_condition_true : swap_condition true = Ordering.gt := rfl

theorem swap_condition_false : swap_condition false = Ordering.lt := rfl

theorem zipWith_and_false_left :
    ∀ (n : Nat) (b : List Bool),
      List.zipWith and (List.replicate n false) b = List.replicate (min n b.length) false
  | 0, _ => by simp
  | n + 1, [] => by simp
  | n + 1, x :: xs => by
      simp only [List.replicate_succ, List.zipWith_cons_cons, Bool.false_and,
        List.length_cons, zipWith_and_false_left n xs]
      rw [Nat.succ_min_succ, List.replicate_succ]

theorem zipWith_or_false_left :
    ∀ (n : Nat) (b : List Bool), List.zipWith or (List.replicate n false) b = b.take n
  | 0, _ => by simp
  | n + 1, [] => by simp
  | n + 1, x :: xs => by
      simp only [List.replicate_succ, List.zipWith_cons_cons, Bool.false_or,
        List.take_succ_cons, zipWith_or_false_left n xs]

theorem zipWith_and_true_left :
    ∀ (n : Nat) (b : List Bool), List.zipWith and (List.replicate n true) b = b.take n
  | 0, _ => by simp
  | n + 1, [] => by simp
  | n + 1, x :: xs => by
      simp only [List.replicate_succ, List.zipWith_cons_cons, Bool.true_and,
        List.take_succ_cons, zipWith_and_true_left n xs]

theorem zipWith_or_true_left :
    ∀ (n : Nat) (b : List Bool),
      List.zipWith or (List.replicate n true) b = List.replicate (min n b.length) true
  | 0, _ => by simp
  | n + 1, [] => by simp
  | n + 1, x :: xs => by
      simp only [List.replicate_succ, List.zipWith_cons_cons, Bool.true_or,
        List.length_cons, zipWith_or_true_left n xs]
      rw [Nat.succ_min_succ, List.replicate_succ]

theorem zipWith_and_comm (a b : List Bool) :
    List.zipWith and a b = List.zipWith and b a :=
  List.zipWith_comm_of_comm and Bool.and_comm a b

theorem zipWith_or_comm (a b : List Bool) :
    List.zipWith or a b = List.zipWith or b a :=
  List.zipWith_comm_of_comm or Bool.or_comm a b

theorem map_not_zipWith_and :
    ∀ (a b : List Bool),
      (List.zipWith and a b).map not = List.zipWith or (a.map not) (b.map not)
  | [], _ => by simp
  | _ :: _, [] => by simp
  | x :: xs, y :: ys => by
      simp only [List.zipWith_cons_cons, List.map_cons, map_not_zipWith_and xs ys,
        Bool.not_and]

theorem map_not_zipWith_or :
    ∀ (a b : List Bool),
      (List.zipWith or a b).map not = List.zipWith and (a.map not) (b.map not)
  | [], _ => by simp
  | _ :: _, [] => by simp
  | x :: xs, y :: ys => by
      simp only [List.zipWith_cons_cons, List.map_cons, map_not_zipWith_or xs ys,
        Bool.not_or]

/-- The elements equal to `true` in `x` form one cyclic interval of positions:
`x` consists of at most three blocks `false*, true*, false*` or
`true*, false*, true*`.  This is exactly the shape of a 0-1 bitonic sequence,
and it is the invariant the bitonic merger preserves on 0-1 data. -/
def CI (x : List Bool) : Prop :=
  (∃ p q r, x = List.replicate p false ++ (List.replicate q true ++ List.replicate r false)) ∨
  (∃ p q r, x = List.replicate p true ++ (List.replicate q false ++ List.replicate r true))

theorem CI_map_not {x : List Bool} (h : CI x) : CI (x.map not) := by
  rcases h with ⟨p, q, r, rfl⟩ | ⟨p, q, r, rfl⟩
  · exact Or.inr ⟨p, q, r, by simp⟩
  · exact Or.inl ⟨p, q, r, by simp⟩


/-- Half-cleaner analysis on a 0-1 sequence of the shape
`false^p ++ true^q ++ false^r` of even length `2*m`: the pointwise `and` of the
two halves and the pointwise `or` of the two halves are again of cyclic-interval
shape, and moreover either the `and` half is all-`false` or the `or` half is
all-`true`. -/
theorem halfclean_family1 {p q r m : Nat} {z : List Bool} (hpqr : p + q + r = 2 * m)
    (hz : z = List.replicate p false ++ (List.replicate q true ++ List.replicate r false)) :
    CI (List.zipWith and (z.take m) (z.drop m)) ∧
    CI (List.zipWith or (z.take m) (z.drop m)) ∧
      (List.zipWith and (z.take m) (z.drop m) = List.replicate m false ∨
        List.zipWith or (z.take m) (z.drop m) = List.replicate m true) := by
  by_cases h1 : m ≤ p
  · have ha : z.take m = List.replicate m false := by
      rw [hz, List.take_append_eq_append_take, List.take_replicate, List.length_replicate,
        (by omega : min m p = m), (by omega : m - p = 0)]
      simp
    have hb : z.drop m = List.replicate (p - m) false ++
        (List.replicate q true ++ List.replicate r false) := by
      rw [hz, List.drop_append_eq_append_drop, List.drop_replicate, List.length_replicate,
        (by omega : m - p = 0)]
      simp
    have hblen : (z.drop m).length = m := by
      rw [hb]
      simp
      omega
    have hand : List.zipWith and (z.take m) (z.drop m) = List.replicate m false := by
      rw [ha, zipWith_and_false_left, hblen, Nat.min_self]
    have hor : List.zipWith or (z.take m) (z.drop m) = z.drop m := by
      rw [ha, zipWith_or_false_left]
      exact List.take_of_length_le (le_of_eq hblen)
    refine ⟨?_, ?_, Or.inl hand⟩
    · rw [hand]
      exact Or.inl ⟨m, 0, 0, by simp⟩
    · rw [hor, hb]
      exact Or.inl ⟨p - m, q, r, rfl⟩
  · by_cases h2 : p + q ≤ m
    · have ha : z.take m = List.replicate p false ++
          (List.replicate q true ++ List.replicate (m - p - q) false) := by
        rw [hz, List.take_append_eq_append_take, List.take_replicate, List.length_replicate,
          (by omega : min m p = p), List.take_append_eq_append_take, List.take_replicate,
          List.length_replicate, (by omega : min (m - p) q = q), List.take_replicate,
          (by omega : min (m - p - q) r = m - p - q)]
      have hb : z.drop m = List.replicate m false := by
        rw [hz, List.drop_append_eq_append_drop, List.drop_replicate, List.length_replicate,
          (by omega : p - m = 0), List.drop_append_eq_append_drop, List.drop_replicate,
          List.length_replicate, (by omega : q - (m - p) = 0), List.drop_replicate,
          (by omega : r - (m - p - q) = m)]
        simp
      have halen : (z.take m).length = m := by
        rw [ha]
        simp
        omega
      have hand : List.zipWith and (z.take m) (z.drop m) = List.replicate m false := by
        rw [hb, zipWith_and_comm, zipWith_and_false_left, halen, Nat.min_self]
      have hor : List.zipWith or (z.take m) (z.drop m) = z.take m := by
        rw [hb, zipWith_or_comm, zipWith_or_false_left]
        exact List.take_of_length_le (le_of_eq halen)
      refine ⟨?_, ?_, Or.inl hand⟩
      · rw [hand]
        exact Or.inl ⟨m, 0, 0, by simp⟩
      · rw [hor, ha]
        exact Or.inl ⟨p, q, m - p - q, rfl⟩
    · push_neg at h1 h2
      have ha : z.take m = List.replicate p false ++ List.replicate (m - p) true := by
        rw [hz, List.take_append_eq_append_take, List.take_replicate, List.length_replicate,
          (by omega : min m p = p), List.take_append_eq_append_take, List.take_replicate,
          List.length_replicate, (by omega : min (m - p) q = m - p), (by omega : m - p - q = 0)]
        simp
      have hb : z.drop m = List.replicate (p + q - m) true ++ List.replicate r false := by
        rw [hz, List.drop_append_eq_append_drop, List.drop_replicate, List.length_replicate,
          List.drop_append_eq_append_drop, List.drop_replicate, List.length_replicate,
          List.drop_replicate, (by omega : p - m = 0), (by omega : q - (m - p) = p + q - m),
          (by omega : r - (m - p - q) = r)]
        simp
      by_cases h3 : m ≤ q
      · have hbsplit : z.drop m = List.replicate p true ++
            (List.replicate (q - m) true ++ List.replicate r false) := by
          rw [hb, (by omega : p + q - m = p + (q - m)), List.replicate_add, List.append_assoc]
        have hwlen : (List.replicate (q - m) true ++ List.replicate r false).length = m - p := by
          simp
          omega
        have hand : List.zipWith and (z.take m) (z.drop m) =
            List.replicate p false ++
              (List.replicate (q - m) true ++ List.replicate r false) := by
          rw [ha, hbsplit, List.zipWith_append _ _ _ _ _ (by simp), zipWith_and_false_left,
            List.length_replicate, Nat.min_self, zipWith_and_true_left]
          rw [List.take_of_length_le (le_of_eq hwlen)]
        have hor : List.zipWith or (z.take m) (z.drop m) = List.replicate m true := by
          rw [ha, hbsplit, List.zipWith_append _ _ _ _ _ (by simp), zipWith_or_false_left,
            zipWith_or_true_left, hwlen, Nat.min_self, List.take_replicate, Nat.min_self,
            ← List.replicate_add, (by omega : p + (m - p) = m)]
        refine ⟨?_, ?_, Or.inr hor⟩
        · rw [hand]
          exact Or.inl ⟨p, q - m, r, rfl⟩
        · rw [hor]
          exact Or.inl ⟨0, m, 0, by simp⟩
      · push_neg at h3
        have hasplit : z.take m = List.replicate (p + q - m) false ++
            (List.replicate (m - q) false ++ List.replicate (m - p) true) := by
          have hp : List.replicate p false =
              List.replicate (p + q - m) false ++ List.replicate (m - q) false := by
            rw [← List.replicate_add]
            congr 1
            omega
          rw [ha, hp, List.append_assoc]
        have hulen : (List.replicate (m - q) false ++ List.replicate (m - p) true).length
            = r := by
          simp
          omega
        have hand : List.zipWith and (z.take m) (z.drop m) = List.replicate m false := by
          rw [hasplit, hb, List.zipWith_append _ _ _ _ _ (by simp),
            zipWith_and_false_left, List.length_replicate,
            (by omega : min (p + q - m) (p + q - m) = p + q - m), zipWith_and_comm,
            zipWith_and_false_left, hulen, Nat.min_self, ← List.replicate_add,
            (by omega : p + q - m + r = m)]
        have hor : List.zipWith or (z.take m) (z.drop m) =
            List.replicate (p + q - m) true ++
              (List.replicate (m - q) false ++ List.replicate (m - p) true) := by
          rw [hasplit, hb, List.zipWith_append _ _ _ _ _ (by simp),
            zipWith_or_false_left, List.take_replicate,
            (by omega : min (p + q - m) (p + q - m) = p + q - m), zipWith_or_comm,
            zipWith_or_false_left]
          rw [List.take_of_length_le (le_of_eq hulen)]
        refine ⟨?_, ?_, Or.inl hand⟩
        · rw [hand]
          exact Or.inl ⟨m, 0, 0, by simp⟩
        · rw [hor]
          exact Or.inr ⟨p + q - m, m - q, m - p, rfl⟩


theorem map_not_map_not (w : List Bool) : (w.map not).map not = w := by
  induction w with
  | nil => rfl
  | cons a t ih => simp [ih]

/-- Half-cleaner on any cyclic-interval 0-1 sequence of even length: both
pointwise halves are again cyclic intervals, and one of them is constant. -/
theorem halfclean_CI {x : List Bool} {m : Nat} (hx : x.length = 2 * m) (hci : CI x) :
    CI (List.zipWith and (x.take m) (x.drop m)) ∧
    CI (List.zipWith or (x.take m) (x.drop m)) ∧
      (List.zipWith and (x.take m) (x.drop m) = List.replicate m false ∨
        List.zipWith or (x.take m) (x.drop m) = List.replicate m true) := by
  rcases hci with ⟨p, q, r, hz⟩ | ⟨p, q, r, hz⟩
  · have hpqr : p + q + r = 2 * m := by
      rw [hz] at hx
      simp at hx
      omega
    exact halfclean_family1 hpqr hz
  · have hy : x.map not = List.replicate p false ++
        (List.replicate q true ++ List.replicate r false) := by
      rw [hz]
      simp
    have hpqr : p + q + r = 2 * m := by
      rw [hz] at hx
      simp at hx
      omega
    obtain ⟨c1, c2, c3⟩ := halfclean_family1 hpqr hy
    have hta : (x.map not).take m = (x.take m).map not := (List.map_take ..).symm
    have htd : (x.map not).drop m = (x.drop m).map not := (List.map_drop ..).symm
    have hand : List.zipWith and ((x.map not).take m) ((x.map not).drop m) =
        (List.zipWith or (x.take m) (x.drop m)).map not := by
      rw [hta, htd, ← map_not_zipWith_or]
    have hor : List.zipWith or ((x.map not).take m) ((x.map not).drop m) =
        (List.zipWith and (x.take m) (x.drop m)).map not := by
      rw [hta, htd, ← map_not_zipWith_and]
    rw [hand] at c1 c3
    rw [hor] at c2 c3
    refine ⟨?_, ?_, ?_⟩
    · have := CI_map_not c2
      rwa [map_not_map_not] at this
    · have := CI_map_not c1
      rwa [map_not_map_not] at this
    · rcases c3 with h | h
      · refine Or.inr ?_
        have := congrArg (List.map not) h
        rwa [map_not_map_not, List.map_replicate] at this
      · refine Or.inl ?_
        have := congrArg (List.map not) h
        rwa [map_not_map_not, List.map_replicate] at this

theorem count_true_map_not (w : List Bool) :
    List.count true (w.map not) + List.count true w = w.length := by
  induction w with
  | nil => simp
  | cons a t ih =>
      cases a <;> simp [List.count_cons, ih] <;> omega


/-- The bitonic merger sorts every cyclic-interval 0-1 sequence of length
`2 ^ k` into ascending order (`false`s first). -/
theorem sub_sort_bool_asc :
    ∀ (k : Nat) (x : List Bool), x.length = 2 ^ k → CI x →
      sub_sort x true bcmp =
        List.replicate (x.length - List.count true x) false ++
          List.replicate (List.count true x) true
  | 0, x, hx, _ => by
      obtain ⟨a, rfl⟩ := List.length_eq_one.1 (by rw [hx]; norm_num)
      rw [sub_sort_of_le (by simp)]
      cases a <;> decide
  | k + 1, x, hx, hci => by
      have hm : 0 < 2 ^ k := Nat.pos_pow_of_pos k (by decide)
      have hx' : x.length = 2 * 2 ^ k := by rw [hx]; ring
      obtain ⟨c1, c2, c3⟩ := halfclean_CI hx' hci
      have hz1len : (List.zipWith and (x.take (2 ^ k)) (x.drop (2 ^ k))).length = 2 ^ k := by
        rw [List.length_zipWith, List.length_take, List.length_drop]
        omega
      have hz2len : (List.zipWith or (x.take (2 ^ k)) (x.drop (2 ^ k))).length = 2 ^ k := by
        rw [List.length_zipWith, List.length_take, List.length_drop]
        omega
      have ih1 := sub_sort_bool_asc k _ hz1len c1
      have ih2 := sub_sort_bool_asc k _ hz2len c2
      have hperm : (List.zipWith and (x.take (2 ^ k)) (x.drop (2 ^ k)) ++
          List.zipWith or (x.take (2 ^ k)) (x.drop (2 ^ k))).Perm x := by
        have hp := zipWith_cas_perm bcmp Ordering.gt (x.take (2 ^ k)) (x.drop (2 ^ k))
          (by rw [List.length_take, List.length_drop]; omega)
        rw [cas_fst_bcmp_gt, cas_snd_bcmp_gt, List.take_append_drop] at hp
        exact hp
      have hcount : List.count true (List.zipWith and (x.take (2 ^ k)) (x.drop (2 ^ k))) +
          List.count true (List.zipWith or (x.take (2 ^ k)) (x.drop (2 ^ k))) =
            List.count true x := by
        have := hperm.count_eq true
        rwa [List.count_append] at this
      have hca := List.count_le_length (a := true)
        (l := List.zipWith and (x.take (2 ^ k)) (x.drop (2 ^ k)))
      have hcb := List.count_le_length (a := true)
        (l := List.zipWith or (x.take (2 ^ k)) (x.drop (2 ^ k)))
      rw [hz1len] at hca
      rw [hz2len] at hcb
      rw [sub_sort_eq_halves hm hx' true bcmp, swap_condition_true, cas_fst_bcmp_gt,
        cas_snd_bcmp_gt, ih1, ih2, hz1len, hz2len]
      rcases c3 with h | h
      · have h0 : List.count true (List.zipWith and (x.take (2 ^ k)) (x.drop (2 ^ k))) = 0 := by
          rw [h]
          simp [List.count_replicate]
        rw [h0] at hcount
        rw [h0, Nat.sub_zero, List.replicate_zero, List.append_nil, ← List.append_assoc,
          ← List.replicate_add, ← hcount]
        congr 2 <;> omega
      · have h1 : List.count true (List.zipWith or (x.take (2 ^ k)) (x.drop (2 ^ k)))
            = 2 ^ k := by
          rw [h]
          simp [List.count_replicate]
        rw [h1] at hcount
        rw [h1, Nat.sub_self, List.replicate_zero, List.nil_append, List.append_assoc,
          ← List.replicate_add, ← hcount]
        congr 2
        omega

/-- On 0-1 data, merging downwards is merging the complemented data upwards,
complemented. -/
theorem sub_sort_bool_mirror :
    ∀ (k : Nat) (x : List Bool), x.length = 2 ^ k →
      sub_sort x false bcmp = (sub_sort (x.map not) true bcmp).map not
  | 0, x, hx => by
      rw [sub_sort_of_le (by omega), sub_sort_of_le (by rw [List.length_map]; omega),
        map_not_map_not]
  | k + 1, x, hx => by
      have hm : 0 < 2 ^ k := Nat.pos_pow_of_pos k (by decide)
      have hx' : x.length = 2 * 2 ^ k := by rw [hx]; ring
      have hxn' : (x.map not).length = 2 * 2 ^ k := by rw [List.length_map]; exact hx'
      have hz1len : (List.zipWith or (x.take (2 ^ k)) (x.drop (2 ^ k))).length = 2 ^ k := by
        rw [List.length_zipWith, List.length_take, List.length_drop]
        omega
      have hz2len : (List.zipWith and (x.take (2 ^ k)) (x.drop (2 ^ k))).length = 2 ^ k := by
        rw [List.length_zipWith, List.length_take, List.length_drop]
        omega
      have hta : (x.map not).take (2 ^ k) = (x.take (2 ^ k)).map not := (List.map_take ..).symm
      have htd : (x.map not).drop (2 ^ k) = (x.drop (2 ^ k)).map not := (List.map_drop ..).symm
      rw [sub_sort_eq_halves hm hx' false bcmp, swap_condition_false, cas_fst_bcmp_lt,
        cas_snd_bcmp_lt, sub_sort_eq_halves hm hxn' true bcmp, swap_condition_true,
        cas_fst_bcmp_gt, cas_snd_bcmp_gt, hta, htd, ← map_not_zipWith_or,
        ← map_not_zipWith_and, List.map_append,
        ← sub_sort_bool_mirror k _ hz1len, ← sub_sort_bool_mirror k _ hz2len]

/-- The bitonic merger sorts every cyclic-interval 0-1 sequence of length
`2 ^ k` into descending order (`true`s first). -/
theorem sub_sort_bool_desc (k : Nat) (x : List Bool) (hx : x.length = 2 ^ k) (hci : CI x) :
    sub_sort x false bcmp =
      List.replicate (List.count true x) true ++
        List.replicate (x.length - List.count true x) false := by
  rw [sub_sort_bool_mirror k x hx,
    sub_sort_bool_asc k _ (by rw [List.length_map]; exact hx) (CI_map_not hci)]
  have hcnt := count_true_map_not x
  have hle := List.count_le_length (a := true) (l := x)
  simp only [List.length_map, List.map_append, List.map_replicate, Bool.not_false,
    Bool.not_true]
  rw [(by omega : x.length - List.count true (x.map not) = List.count true x),
    (by omega : List.count true (x.map not) = x.length - List.count true x)]

/-- The bitonic builder fully sorts every 0-1 sequence of length `2 ^ k`,
ascending for `forward = true` and descending for `forward = false`. -/
theorem do_sort_bool :
    ∀ (k : Nat) (x : List Bool), x.length = 2 ^ k →
      do_sort x true bcmp =
          List.replicate (x.length - List.count true x) false ++
            List.replicate (List.count true x) true ∧
        do_sort x false bcmp =
          List.replicate (List.count true x) true ++
            List.replicate (x.length - List.count true x) false
  | 0, x, hx => by
      obtain ⟨a, rfl⟩ := List.length_eq_one.1 (by rw [hx]; norm_num)
      rw [do_sort_of_le (by simp), do_sort_of_le (by simp)]
      cases a <;> exact ⟨by decide, by decide⟩
  | k + 1, x, hx => by
      have hm : 0 < 2 ^ k := Nat.pos_pow_of_pos k (by decide)
      have hx' : x.length = 2 * 2 ^ k := by rw [hx]; ring
      have h1 : 1 < x.length := by omega
      have hmid : x.length / 2 = 2 ^ k := by omega
      have htake : (x.take (2 ^ k)).length = 2 ^ k := by rw [List.length_take]; omega
      have hdrop : (x.drop (2 ^ k)).length = 2 ^ k := by rw [List.length_drop]; omega
      obtain ⟨ihA, _⟩ := do_sort_bool k (x.take (2 ^ k)) htake
      obtain ⟨_, ihB⟩ := do_sort_bool k (x.drop (2 ^ k)) hdrop
      have hcaL := List.count_le_length (a := true) (l := x.take (2 ^ k))
      have hcbL := List.count_le_length (a := true) (l := x.drop (2 ^ k))
      rw [htake] at hcaL
      rw [hdrop] at hcbL
      have hz : do_sort (x.take (2 ^ k)) true bcmp ++ do_sort (x.drop (2 ^ k)) false bcmp =
          List.replicate (2 ^ k - List.count true (x.take (2 ^ k))) false ++
            (List.replicate
                (List.count true (x.take (2 ^ k)) + List.count true (x.drop (2 ^ k))) true ++
              List.replicate (2 ^ k - List.count true (x.drop (2 ^ k))) false) := by
        rw [ihA, ihB, htake, hdrop, List.append_assoc, ← List.append_assoc
          (List.replicate (List.count true (x.take (2 ^ k))) true), ← List.replicate_add]
      have hzlen : (do_sort (x.take (2 ^ k)) true bcmp ++
          do_sort (x.drop (2 ^ k)) false bcmp).length = 2 ^ (k + 1) := by
        rw [List.length_append, length_do_sort, length_do_sort, htake, hdrop]
        ring
      have hzci : CI (do_sort (x.take (2 ^ k)) true bcmp ++
          do_sort (x.drop (2 ^ k)) false bcmp) := by
        rw [hz]
        exact Or.inl ⟨_, _, _, rfl⟩
      have hzcnt : List.count true (do_sort (x.take (2 ^ k)) true bcmp ++
          do_sort (x.drop (2 ^ k)) false bcmp) =
            List.count true (x.take (2 ^ k)) + List.count true (x.drop (2 ^ k)) := by
        rw [hz]
        simp [List.count_replicate]
      have hcx : List.count true x =
          List.count true (x.take (2 ^ k)) + List.count true (x.drop (2 ^ k)) := by
        conv_lhs => rw [← List.take_append_drop (2 ^ k) x]
        rw [List.count_append]
      constructor
      · rw [do_sort_of_lt h1, hmid, sub_sort_bool_asc (k + 1) _ hzlen hzci, hzlen, hzcnt,
          ← hcx, ← hx]
      · rw [do_sort_of_lt h1, hmid, sub_sort_bool_desc (k + 1) _ hzlen hzci, hzlen, hzcnt,
          ← hcx, ← hx]


/-- `f` is a monotone 0-1 map with respect to the preorder induced by the
comparator `c` (`c a b ≠ .gt` meaning `a ≤ b`). -/
def MonoCmp (c : α → α → Ordering) (f : α → Bool) : Prop :=
  ∀ a b, c a b ≠ Ordering.gt → f a = true → f b = true

theorem map_cas_fst (c : α → α → Ordering) [Batteries.OrientedCmp c] {f : α → Bool}
    (hf : MonoCmp c f) (fwd : Bool) (a b : α) :
    f (cas_fst c (swap_condition fwd) a b) =
      cas_fst bcmp (swap_condition fwd) (f a) (f b) := by
  cases fwd
  · rw [swap_condition_false]
    unfold cas_fst
    by_cases hc : c a b = Ordering.lt
    · have hab : c a b ≠ Ordering.gt := by rw [hc]; simp
      have hmono := hf a b hab
      rw [if_pos hc]
      cases hfa : f a <;> cases hfb : f b <;> simp_all [bcmp]
    · have hba : c b a ≠ Ordering.gt := Batteries.OrientedCmp.cmp_ne_gt.2 hc
      have hmono := hf b a hba
      rw [if_neg hc]
      cases hfa : f a <;> cases hfb : f b <;> simp_all [bcmp]
  · rw [swap_condition_true]
    unfold cas_fst
    by_cases hc : c a b = Ordering.gt
    · have hlt : c b a = Ordering.lt := Batteries.OrientedCmp.cmp_eq_gt.1 hc
      have hba : c b a ≠ Ordering.gt := by rw [hlt]; simp
      have hmono := hf b a hba
      rw [if_pos hc]
      cases hfa : f a <;> cases hfb : f b <;> simp_all [bcmp]
    · have hmono := hf a b hc
      rw [if_neg hc]
      cases hfa : f a <;> cases hfb : f b <;> simp_all [bcmp]

theorem map_cas_snd (c : α → α → Ordering) [Batteries.OrientedCmp c] {f : α → Bool}
    (hf : MonoCmp c f) (fwd : Bool) (a b : α) :
    f (cas_snd c (swap_condition fwd) a b) =
      cas_snd bcmp (swap_condition fwd) (f a) (f b) := by
  cases fwd
  · rw [swap_condition_false]
    unfold cas_snd
    by_cases hc : c a b = Ordering.lt
    · have hab : c a b ≠ Ordering.gt := by rw [hc]; simp
      have hmono := hf a b hab
      rw [if_pos hc]
      cases hfa : f a <;> cases hfb : f b <;> simp_all [bcmp]
    · have hba : c b a ≠ Ordering.gt := Batteries.OrientedCmp.cmp_ne_gt.2 hc
      have hmono := hf b a hba
      rw [if_neg hc]
      cases hfa : f a <;> cases hfb : f b <;> simp_all [bcmp]
  · rw [swap_condition_true]
    unfold cas_snd
    by_cases hc : c a b = Ordering.gt
    · have hlt : c b a = Ordering.lt := Batteries.OrientedCmp.cmp_eq_gt.1 hc
      have hba : c b a ≠ Ordering.gt := by rw [hlt]; simp
      have hmono := hf b a hba
      rw [if_pos hc]
      cases hfa : f a <;> cases hfb : f b <;> simp_all [bcmp]
    · have hmono := hf a b hc
      rw [if_neg hc]
      cases hfa : f a <;> cases hfb : f b <;> simp_all [bcmp]

theorem map_zipWith_cas_fst (c : α → α → Ordering) [Batteries.OrientedCmp c] {f : α → Bool}
    (hf : MonoCmp c f) (fwd : Bool) :
    ∀ (a b : List α),
      (List.zipWith (cas_fst c (swap_condition fwd)) a b).map f =
        List.zipWith (cas_fst bcmp (swap_condition fwd)) (a.map f) (b.map f)
  | [], _ => by simp
  | _ :: _, [] => by simp
  | x :: xs, y :: ys => by
      simp only [List.zipWith_cons_cons, List.map_cons]
      rw [map_cas_fst c hf fwd x y, map_zipWith_cas_fst c hf fwd xs ys]

theorem map_zipWith_cas_snd (c : α → α → Ordering) [Batteries.OrientedCmp c] {f : α → Bool}
    (hf : MonoCmp c f) (fwd : Bool) :
    ∀ (a b : List α),
      (List.zipWith (cas_snd c (swap_condition fwd)) a b).map f =
        List.zipWith (cas_snd bcmp (swap_condition fwd)) (a.map f) (b.map f)
  | [], _ => by simp
  | _ :: _, [] => by simp
  | x :: xs, y :: ys => by
      simp only [List.zipWith_cons_cons, List.map_cons]
      rw [map_cas_snd c hf fwd x y, map_zipWith_cas_snd c hf fwd xs ys]

/-- Naturality of the merger under monotone 0-1 maps: applying a monotone
threshold function commutes with `sub_sort`, because the sequence of
compare-exchange positions does not depend on the data. -/
theorem map_sub_sort (c : α → α → Ordering) [Batteries.OrientedCmp c] {f : α → Bool}
    (hf : MonoCmp c f) :
    ∀ (k : Nat) (x : List α) (fwd : Bool), x.length = 2 ^ k →
      (sub_sort x fwd c).map f = sub_sort (x.map f) fwd bcmp
  | 0, x, fwd, hx => by
      rw [sub_sort_of_le (by omega), sub_sort_of_le (by rw [List.length_map]; omega)]
  | k + 1, x, fwd, hx => by
      have hm : 0 < 2 ^ k := Nat.pos_pow_of_pos k (by decide)
      have hx' : x.length = 2 * 2 ^ k := by rw [hx]; ring
      have hxm' : (x.map f).length = 2 * 2 ^ k := by rw [List.length_map]; exact hx'
      have hz1len : (List.zipWith (cas_fst c (swap_condition fwd))
          (x.take (2 ^ k)) (x.drop (2 ^ k))).length = 2 ^ k := by
        rw [List.length_zipWith, List.length_take, List.length_drop]
        omega
      have hz2len : (List.zipWith (cas_snd c (swap_condition fwd))
          (x.take (2 ^ k)) (x.drop (2 ^ k))).length = 2 ^ k := by
        rw [List.length_zipWith, List.length_take, List.length_drop]
        omega
      rw [sub_sort_eq_halves hm hx' fwd c, sub_sort_eq_halves hm hxm' fwd bcmp,
        List.map_append, map_sub_sort c hf k _ fwd hz1len, map_sub_sort c hf k _ fwd hz2len,
        map_zipWith_cas_fst c hf fwd, map_zipWith_cas_snd c hf fwd,
        List.map_take, List.map_drop]

/-- Naturality of the builder under monotone 0-1 maps. -/
theorem map_do_sort (c : α → α → Ordering) [Batteries.OrientedCmp c] {f : α → Bool}
    (hf : MonoCmp c f) :
    ∀ (k : Nat) (x : List α) (fwd : Bool), x.length = 2 ^ k →
      (do_sort x fwd c).map f = do_sort (x.map f) fwd bcmp
  | 0, x, fwd, hx => by
      rw [do_sort_of_le (by omega), do_sort_of_le (by rw [List.length_map]; omega)]
  | k + 1, x, fwd, hx => by
      have hm : 0 < 2 ^ k := Nat.pos_pow_of_pos k (by decide)
      have hx' : x.length = 2 * 2 ^ k := by rw [hx]; ring
      have h1 : 1 < x.length := by omega
      have h1m : 1 < (x.map f).length := by rw [List.length_map]; omega
      have hmid : x.length / 2 = 2 ^ k := by omega
      have hmidm : (x.map f).length / 2 = 2 ^ k := by rw [List.length_map]; omega
      have htake : (x.take (2 ^ k)).length = 2 ^ k := by rw [List.length_take]; omega
      have hdrop : (x.drop (2 ^ k)).length = 2 ^ k := by rw [List.length_drop]; omega
      have hlz : (do_sort (x.take (2 ^ k)) true c ++ do_sort (x.drop (2 ^ k)) false c).length
          = 2 ^ (k + 1) := by
        rw [List.length_append, length_do_sort, length_do_sort, htake, hdrop]
        ring
      rw [do_sort_of_lt h1, do_sort_of_lt h1m, hmid, hmidm,
        map_sub_sort c hf (k + 1) _ fwd hlz, List.map_append,
        map_do_sort c hf k _ true htake, map_do_sort c hf k _ false hdrop,
        List.map_take, List.map_drop]


/-- Non-decreasing with respect to the comparator: no earlier element compares
`gt` against a later one. -/
def SortedLe (c : α → α → Ordering) (l : List α) : Prop :=
  List.Pairwise (fun a b => c a b ≠ Ordering.gt) l

/-- Non-increasing with respect to the comparator: no earlier element compares
`lt` against a later one. -/
def SortedGe (c : α → α → Ordering) (l : List α) : Prop :=
  List.Pairwise (fun a b => c a b ≠ Ordering.lt) l

/-- Bitonic with respect to the comparator: some rotation of the sequence is a
non-decreasing run followed by a non-increasing run. -/
def Bitonic (c : α → α → Ordering) (x : List α) : Prop :=
  ∃ u v p q, x = u ++ v ∧ v ++ u = p ++ q ∧ SortedLe c p ∧ SortedGe c q

theorem pairwise_bLe_canonical (u v : Nat) :
    List.Pairwise (fun a b => bcmp a b ≠ Ordering.gt)
      (List.replicate u false ++ List.replicate v true) := by
  rw [List.pairwise_append]
  refine ⟨List.pairwise_replicate.2 (Or.inr (by decide)),
    List.pairwise_replicate.2 (Or.inr (by decide)), ?_⟩
  intro a ha b hb
  rw [List.eq_of_mem_replicate ha, List.eq_of_mem_replicate hb]
  decide

theorem pairwise_bGe_canonical (u v : Nat) :
    List.Pairwise (fun a b => bcmp a b ≠ Ordering.lt)
      (List.replicate u true ++ List.replicate v false) := by
  rw [List.pairwise_append]
  refine ⟨List.pairwise_replicate.2 (Or.inr (by decide)),
    List.pairwise_replicate.2 (Or.inr (by decide)), ?_⟩
  intro a ha b hb
  rw [List.eq_of_mem_replicate ha, List.eq_of_mem_replicate hb]
  decide

/-- A non-decreasing 0-1 list is a block of `false`s followed by a block of
`true`s. -/
theorem bool_sortedLe_canonical :
    ∀ {l : List Bool}, List.Pairwise (fun a b => bcmp a b ≠ Ordering.gt) l →
      l = List.replicate (l.length - List.count true l) false ++
        List.replicate (List.count true l) true
  | [], _ => rfl
  | a :: t, h => by
      obtain ⟨ha, ht⟩ := List.pairwise_cons.1 h
      cases a
      · have ih := bool_sortedLe_canonical ht
        have hle := List.count_le_length (a := true) (l := t)
        have hc : List.count true (false :: t) = List.count true t := by
          simp [List.count_cons]
        rw [hc, List.length_cons,
          (by omega : t.length + 1 - List.count true t = (t.length - List.count true t) + 1),
          List.replicate_succ, List.cons_append]
        exact congrArg _ ih
      · have htr : ∀ b ∈ t, b = true := by
          intro b hb
          have hab := ha b hb
          cases hb2 : b
          · rw [hb2] at hab
            exact absurd rfl hab
          · rfl
        have ht' : t = List.replicate t.length true := List.eq_replicate_of_mem htr
        have hc : List.count true (true :: t) = t.length + 1 := by
          rw [List.count_cons_self]
          conv_lhs => rw [ht']
          rw [List.count_replicate_self]
        rw [hc, List.length_cons, Nat.sub_self, List.replicate_zero, List.nil_append,
          List.replicate_succ]
        exact congrArg _ ht'

/-- A non-increasing 0-1 list is a block of `true`s followed by a block of
`false`s. -/
theorem bool_sortedGe_canonical :
    ∀ {l : List Bool}, List.Pairwise (fun a b => bcmp a b ≠ Ordering.lt) l →
      l = List.replicate (List.count true l) true ++
        List.replicate (l.length - List.count true l) false
  | [], _ => rfl
  | a :: t, h => by
      obtain ⟨ha, ht⟩ := List.pairwise_cons.1 h
      cases a
      · have htr : ∀ b ∈ t, b = false := by
          intro b hb
          have hab := ha b hb
          cases hb2 : b
          · rfl
          · rw [hb2] at hab
            exact absurd rfl hab
        have ht' : t = List.replicate t.length false := List.eq_replicate_of_mem htr
        have hc : List.count true (false :: t) = 0 := by
          have : List.count true t = 0 := by
            conv_lhs => rw [ht']
            simp [List.count_replicate]
          simp [List.count_cons, this]
        rw [hc, List.length_cons, Nat.sub_zero, List.replicate_zero, List.nil_append,
          List.replicate_succ]
        exact congrArg _ ht'
      · have ih := bool_sortedGe_canonical ht
        have hle := List.count_le_length (a := true) (l := t)
        have hc : List.count true (true :: t) = List.count true t + 1 :=
          List.count_cons_self true t
        rw [hc, List.length_cons,
          (by omega : t.length + 1 - (List.count true t + 1) = t.length - List.count true t),
          List.replicate_succ, List.cons_append]
        exact congrArg _ ih

/-- Any rotation of a three-block 0-1 sequence is again a cyclic interval. -/
theorem CI_rotation (p q r s : Nat) {z : List Bool}
    (hz : z = List.replicate p false ++ (List.replicate q true ++ List.replicate r false)) :
    CI (z.drop s ++ z.take s) := by
  by_cases h1 : s ≤ p
  · have hd : z.drop s = List.replicate (p - s) false ++
        (List.replicate q true ++ List.replicate r false) := by
      rw [hz, List.drop_append_eq_append_drop, List.drop_replicate, List.length_replicate,
        (by omega : s - p = 0)]
      simp
    have ht : z.take s = List.replicate s false := by
      rw [hz, List.take_append_eq_append_take, List.take_replicate, List.length_replicate,
        (by omega : min s p = s), (by omega : s - p = 0)]
      simp
    rw [hd, ht]
    refine Or.inl ⟨p - s, q, r + s, ?_⟩
    rw [List.append_assoc, List.append_assoc, List.replicate_add]
  · by_cases h2 : s ≤ p + q
    · have hd : z.drop s = List.replicate (p + q - s) true ++ List.replicate r false := by
        rw [hz, List.drop_append_eq_append_drop, List.drop_replicate, List.length_replicate,
          List.drop_append_eq_append_drop, List.drop_replicate, List.length_replicate,
          List.drop_replicate, (by omega : p - s = 0), (by omega : q - (s - p) = p + q - s),
          (by omega : r - (s - p - q) = r)]
        simp
      have ht : z.take s = List.replicate p false ++ List.replicate (s - p) true := by
        rw [hz, List.take_append_eq_append_take, List.take_replicate, List.length_replicate,
          (by omega : min s p = p), List.take_append_eq_append_take, List.take_replicate,
          List.length_replicate, (by omega : min (s - p) q = s - p), (by omega : s - p - q = 0)]
        simp
      rw [hd, ht]
      refine Or.inr ⟨p + q - s, r + p, s - p, ?_⟩
      rw [List.append_assoc, ← List.append_assoc (List.replicate r false),
        ← List.replicate_add]
    · have hd : z.drop s = List.replicate (r - (s - p - q)) false := by
        rw [hz, List.drop_append_eq_append_drop, List.drop_replicate, List.length_replicate,
          List.drop_append_eq_append_drop, List.drop_replicate, List.length_replicate,
          List.drop_replicate, (by omega : p - s = 0), (by omega : q - (s - p) = 0)]
        simp
      have ht : z.take s = List.replicate p false ++
          (List.replicate q true ++ List.replicate (min (s - p - q) r) false) := by
        rw [hz, List.take_append_eq_append_take, List.take_replicate, List.length_replicate,
          (by omega : min s p = p), List.take_append_eq_append_take, List.take_replicate,
          List.length_replicate, (by omega : min (s - p) q = q), List.take_replicate]
      rw [hd, ht]
      refine Or.inl ⟨r - (s - p - q) + p, q, min (s - p - q) r, ?_⟩
      rw [← List.append_assoc, ← List.replicate_add]

theorem sortedLe_map_bLe (c : α → α → Ordering) {f : α → Bool} (hf : MonoCmp c f)
    {l : List α} (h : SortedLe c l) :
    List.Pairwise (fun a b => bcmp a b ≠ Ordering.gt) (l.map f) := by
  refine List.Pairwise.map f ?_ h
  intro a b hab
  have hm := hf a b hab
  cases hfa : f a
  · cases hfb : f b <;> decide
  · rw [hm hfa]
    decide

theorem sortedGe_map_bGe (c : α → α → Ordering) [Batteries.OrientedCmp c] {f : α → Bool}
    (hf : MonoCmp c f) {l : List α} (h : SortedGe c l) :
    List.Pairwise (fun a b => bcmp a b ≠ Ordering.lt) (l.map f) := by
  refine List.Pairwise.map f ?_ h
  intro a b hab
  have hba : c b a ≠ Ordering.gt := Batteries.OrientedCmp.cmp_ne_gt.2 hab
  have hm := hf b a hba
  cases hfb : f b
  · cases hfa : f a <;> decide
  · rw [hm hfb]
    decide

/-- A monotone 0-1 image of a bitonic sequence is a cyclic interval. -/
theorem CI_map_of_bitonic (c : α → α → Ordering) [Batteries.OrientedCmp c] {f : α → Bool}
    (hf : MonoCmp c f) {x : List α} (hb : Bitonic c x) : CI (x.map f) := by
  obtain ⟨u, v, p, q, hx, hvu, hp, hq⟩ := hb
  have hP := bool_sortedLe_canonical (sortedLe_map_bLe c hf hp)
  have hQ := bool_sortedGe_canonical (sortedGe_map_bGe c hf hq)
  have hz : (v.map f) ++ (u.map f) =
      List.replicate ((p.map f).length - List.count true (p.map f)) false ++
        (List.replicate (List.count true (p.map f) + List.count true (q.map f)) true ++
          List.replicate ((q.map f).length - List.count true (q.map f)) false) := by
    rw [← List.map_append, hvu, List.map_append]
    conv_lhs => rw [hP, hQ]
    rw [List.append_assoc, ← List.append_assoc (List.replicate (List.count true (p.map f)) true),
      ← List.replicate_add]
  have hxm : x.map f = ((v.map f) ++ (u.map f)).drop (v.map f).length ++
      ((v.map f) ++ (u.map f)).take (v.map f).length := by
    rw [List.drop_left, List.take_left, hx, List.map_append]
  rw [hxm, hz]
  exact CI_rotation _ _ _ _ rfl


/-- Zero-one principle conclusion for the builder: `do_sort _ true` sorts every
power-of-two-length list non-decreasingly with respect to any transitive
comparator. -/
theorem do_sort_sortedLe (c : α → α → Ordering) [Batteries.TransCmp c]
    (k : Nat) (x : List α) (hx : x.length = 2 ^ k) :
    SortedLe c (do_sort x true c) := by
  rw [SortedLe, List.pairwise_iff_getElem]
  intro i j hi hj hij
  by_contra hgt
  set f : α → Bool := fun a => decide (c (do_sort x true c)[j] a = Ordering.lt) with hfdef
  have hmono : MonoCmp c f := by
    intro a b hab ha
    simp only [hfdef, decide_eq_true_eq] at ha ⊢
    exact Batteries.TransCmp.lt_le_trans ha hab
  have hnat := map_do_sort c hmono k x true hx
  obtain ⟨hb, _⟩ := do_sort_bool k (x.map f) (by rw [List.length_map]; exact hx)
  rw [← hnat] at hb
  have hps : List.Pairwise (fun a b => bcmp a b ≠ Ordering.gt)
      ((do_sort x true c).map f) := by
    rw [hb]
    exact pairwise_bLe_canonical _ _
  have hpair := (List.pairwise_iff_getElem.1 hps) i j
    (by rw [List.length_map]; exact hi) (by rw [List.length_map]; exact hj) hij
  rw [List.getElem_map, List.getElem_map] at hpair
  have hfi : f (do_sort x true c)[i] = true := by
    simp only [hfdef, decide_eq_true_eq]
    exact Batteries.OrientedCmp.cmp_eq_gt.1 hgt
  have hfj : f (do_sort x true c)[j] = false := by
    simp [hfdef, Batteries.OrientedCmp.cmp_refl]
  rw [hfi, hfj] at hpair
  exact hpair rfl

/-- Zero-one principle conclusion for the merger, upward direction: on a
bitonic power-of-two-length input, `sub_sort _ true` produces a non-decreasing
sequence. -/
theorem sub_sort_sortedLe (c : α → α → Ordering) [Batteries.TransCmp c]
    (k : Nat) (x : List α) (hx : x.length = 2 ^ k) (hbit : Bitonic c x) :
    SortedLe c (sub_sort x true c) := by
  rw [SortedLe, List.pairwise_iff_getElem]
  intro i j hi hj hij
  by_contra hgt
  set f : α → Bool := fun a => decide (c (sub_sort x true c)[j] a = Ordering.lt) with hfdef
  have hmono : MonoCmp c f := by
    intro a b hab ha
    simp only [hfdef, decide_eq_true_eq] at ha ⊢
    exact Batteries.TransCmp.lt_le_trans ha hab
  have hnat := map_sub_sort c hmono k x true hx
  have hb := sub_sort_bool_asc k (x.map f) (by rw [List.length_map]; exact hx)
    (CI_map_of_bitonic c hmono hbit)
  rw [← hnat] at hb
  have hps : List.Pairwise (fun a b => bcmp a b ≠ Ordering.gt)
      ((sub_sort x true c).map f) := by
    rw [hb]
    exact pairwise_bLe_canonical _ _
  have hpair := (List.pairwise_iff_getElem.1 hps) i j
    (by rw [List.length_map]; exact hi) (by rw [List.length_map]; exact hj) hij
  rw [List.getElem_map, List.getElem_map] at hpair
  have hfi : f (sub_sort x true c)[i] = true := by
    simp only [hfdef, decide_eq_true_eq]
    exact Batteries.OrientedCmp.cmp_eq_gt.1 hgt
  have hfj : f (sub_sort x true c)[j] = false := by
    simp [hfdef, Batteries.OrientedCmp.cmp_refl]
  rw [hfi, hfj] at hpair
  exact hpair rfl

/-- Zero-one principle conclusion for the merger, downward direction: on a
bitonic power-of-two-length input, `sub_sort _ false` produces a non-increasing
sequence. -/
theorem sub_sort_sortedGe (c : α → α → Ordering) [Batteries.TransCmp c]
    (k : Nat) (x : List α) (hx : x.length = 2 ^ k) (hbit : Bitonic c x) :
    SortedGe c (sub_sort x false c) := by
  rw [SortedGe, List.pairwise_iff_getElem]
  intro i j hi hj hij
  by_contra hlt
  set f : α → Bool := fun a => decide (c (sub_sort x false c)[i] a = Ordering.lt) with hfdef
  have hmono : MonoCmp c f := by
    intro a b hab ha
    simp only [hfdef, decide_eq_true_eq] at ha ⊢
    exact Batteries.TransCmp.lt_le_trans ha hab
  have hnat := map_sub_sort c hmono k x false hx
  have hb := sub_sort_bool_desc k (x.map f) (by rw [List.length_map]; exact hx)
    (CI_map_of_bitonic c hmono hbit)
  rw [← hnat] at hb
  have hps : List.Pairwise (fun a b => bcmp a b ≠ Ordering.lt)
      ((sub_sort x false c).map f) := by
    rw [hb]
    exact pairwise_bGe_canonical _ _
  have hpair := (List.pairwise_iff_getElem.1 hps) i j
    (by rw [List.length_map]; exact hi) (by rw [List.length_map]; exact hj) hij
  rw [List.getElem_map, List.getElem_map] at hpair
  have hfi : f (sub_sort x false c)[i] = false := by
    simp [hfdef, Batteries.OrientedCmp.cmp_refl]
  have hfj : f (sub_sort x false c)[j] = true := by
    simp only [hfdef, decide_eq_true_eq]
    exact hlt
  rw [hfi, hfj] at hpair
  exact hpair rfl


theorem transCmp_flip (c : α → α → Ordering) [Batteries.TransCmp c] :
    Batteries.TransCmp (fun a b => c b a) :=
  { symm := fun x y => Batteries.OrientedCmp.symm y x
    le_trans := fun h1 h2 => Batteries.TransCmp.le_trans h2 h1 }

theorem count_ones_zero : count_ones 0 = 0 := by
  simp [count_ones]

theorem count_ones_one : count_ones 1 = 1 := by
  rw [count_ones]
  norm_num [count_ones_zero]

theorem count_ones_two_mul (n : Nat) : count_ones (2 * n) = count_ones n := by
  rcases Nat.eq_zero_or_pos n with h | h
  · rw [h, Nat.mul_zero]
  · rw [count_ones, if_neg (by omega), Nat.mul_mod_right,
      Nat.mul_div_cancel_left n (by decide : 0 < 2)]
    omega

theorem count_ones_two_pow (k : Nat) : count_ones (2 ^ k) = 1 := by
  induction k with
  | zero => exact count_ones_one
  | succ k ih => rw [pow_succ, Nat.mul_comm, count_ones_two_mul, ih]

theorem count_ones_eq_zero (n : Nat) : count_ones n = 0 ↔ n = 0 := by
  constructor
  · intro h
    by_contra hn
    rw [count_ones, if_neg hn] at h
    have h2 : count_ones (n / 2) = 0 := by omega
    have h3 : n % 2 = 0 := by omega
    have h4 : n / 2 = 0 := (count_ones_eq_zero (n / 2)).1 h2
    omega
  · intro h
    rw [h]
    exact count_ones_zero
termination_by n
decreasing_by exact Nat.div_lt_self (Nat.pos_of_ne_zero hn) (by decide)

theorem count_ones_eq_one (n : Nat) (h : count_ones n = 1) : ∃ k, n = 2 ^ k := by
  have hn : n ≠ 0 := by
    intro h0
    rw [h0, count_ones_zero] at h
    exact absurd h (by decide)
  rw [count_ones, if_neg hn] at h
  rcases Nat.mod_two_eq_zero_or_one n with hp | hp
  · have h2 : count_ones (n / 2) = 1 := by omega
    obtain ⟨k, hk⟩ := count_ones_eq_one (n / 2) h2
    refine ⟨k + 1, ?_⟩
    rw [pow_succ, Nat.mul_comm, ← hk]
    omega
  · have h2 : count_ones (n / 2) = 0 := by omega
    have h4 : n / 2 = 0 := (count_ones_eq_zero (n / 2)).1 h2
    refine ⟨0, ?_⟩
    rw [pow_zero]
    omega
termination_by n
decreasing_by exact Nat.div_lt_self (Nat.pos_of_ne_zero hn) (by decide)

/-- Rust's power-of-two test agrees with the mathematical notion; note that
`0` is not a power of two. -/
theorem is_power_of_two_iff (n : Nat) : is_power_of_two n = true ↔ ∃ k, n = 2 ^ k := by
  rw [is_power_of_two, beq_iff_eq]
  constructor
  · exact count_ones_eq_one n
  · rintro ⟨k, rfl⟩
    exact count_ones_two_pow k

theorem is_power_of_two_zero : is_power_of_two 0 = false := by
  rw [is_power_of_two, count_ones_zero]
  rfl

theorem sortedLe_compare_iff [LinearOrder α] {l : List α} :
    SortedLe (fun a b : α => compare a b) l ↔ List.Sorted (· ≤ ·) l := by
  constructor
  · exact fun h => h.imp (fun hab => compare_le_iff_le.1 hab)
  · exact fun h => h.imp (fun hab => compare_le_iff_le.2 hab)

theorem sortedLe_flip_compare_iff [LinearOrder α] {l : List α} :
    SortedLe (fun a b : α => compare b a) l ↔ List.Sorted (· ≥ ·) l := by
  constructor
  · exact fun h => h.imp (fun hab => compare_le_iff_le.1 hab)
  · exact fun h => h.imp (fun hab => compare_le_iff_le.2 hab)

/-- Behaviour of `sort` on a power-of-two length: success, permutation, and
sortedness in the requested direction. -/
theorem sort_spec [LinearOrder α] (x : List α) (k : Nat) (hx : x.length = 2 ^ k) :
    sort x SortOrder.Ascending =
        (Except.ok (), do_sort x true (fun a b => compare a b)) ∧
      (do_sort x true (fun a b => compare a b)).Perm x ∧
      List.Sorted (· ≤ ·) (do_sort x true (fun a b => compare a b)) ∧
      sort x SortOrder.Descending =
        (Except.ok (), do_sort x true (fun a b => compare b a)) ∧
      (do_sort x true (fun a b => compare b a)).Perm x ∧
      List.Sorted (· ≥ ·) (do_sort x true (fun a b => compare b a)) := by
  have hpow : is_power_of_two x.length = true := (is_power_of_two_iff _).2 ⟨k, hx⟩
  refine ⟨?_, do_sort_perm _ true k x hx, ?_, ?_, do_sort_perm _ true k x hx, ?_⟩
  · rw [sort, sort_by, if_pos hpow]
  · exact sortedLe_compare_iff.1 (do_sort_sortedLe _ k x hx)
  · rw [sort, sort_by, if_pos hpow]
  · haveI := transCmp_flip (fun a b : α => compare a b)
    exact sortedLe_flip_compare_iff.1 (do_sort_sortedLe _ k x hx)


theorem sort_asc_def [LinearOrder α] (x : List α) :
    sort x SortOrder.Ascending = sort_by x (fun a b => compare a b) := rfl

theorem sort_desc_def [LinearOrder α] (x : List α) :
    sort x SortOrder.Descending = sort_by x (fun a b => compare b a) := rfl

theorem sort_by_perm (x : List α) (c : α → α → Ordering) :
    ((sort_by x c).2).Perm x := by
  rw [sort_by]
  rcases hb : is_power_of_two x.length with _ | _
  · rw [if_neg (by simp)]
  · rw [if_pos rfl]
    obtain ⟨k, hk⟩ := (is_power_of_two_iff _).1 hb
    exact do_sort_perm c true k x hk

/-- C1: for every list whose length is a power of two `2 ^ k` over a linearly
ordered element type, `sort` with `Ascending` succeeds and produces a
non-decreasing permutation of the input, and `sort` with `Descending` succeeds
and produces a non-increasing permutation of the input. -/
theorem C1_sort_power_of_two_sorts [LinearOrder α] (x : List α) (k : Nat)
    (hx : x.length = 2 ^ k) :
    (sort x SortOrder.Ascending).1 = Except.ok () ∧
    ((sort x SortOrder.Ascending).2).Perm x ∧
    List.Sorted (· ≤ ·) (sort x SortOrder.Ascending).2 ∧
    (sort x SortOrder.Descending).1 = Except.ok () ∧
    ((sort x SortOrder.Descending).2).Perm x ∧
    List.Sorted (· ≥ ·) (sort x SortOrder.Descending).2 := by
  obtain ⟨ha, hap, has, hd, hdp, hds⟩ := sort_spec x k hx
  rw [ha, hd]
  exact ⟨rfl, hap, has, rfl, hdp, hds⟩

theorem C1_witness :
    ([2, 1] : List ℕ).length = 2 ^ 1 ∧
      ((sort ([2, 1] : List ℕ) SortOrder.Ascending).1 = Except.ok () ∧
        ((sort ([2, 1] : List ℕ) SortOrder.Ascending).2).Perm [2, 1] ∧
        List.Sorted (· ≤ ·) (sort ([2, 1] : List ℕ) SortOrder.Ascending).2 ∧
        (sort ([2, 1] : List ℕ) SortOrder.Descending).1 = Except.ok () ∧
        ((sort ([2, 1] : List ℕ) SortOrder.Descending).2).Perm [2, 1] ∧
        List.Sorted (· ≥ ·) (sort ([2, 1] : List ℕ) SortOrder.Descending).2) :=
  ⟨by decide, C1_sort_power_of_two_sorts [2, 1] 1 (by decide)⟩

/-- C2: when the length is not a power of two, `sort_by` and `sort` return the
`ShapeError` message carrying the observed length and leave the list
unmodified; when the length is a power of two, they return `Ok`. -/
theorem C2_shape_error [LinearOrder α] (x : List α) (c : α → α → Ordering)
    (ord : SortOrder) :
    ((¬ ∃ k, x.length = 2 ^ k) →
      sort_by x c =
          (Except.error ("The length of x is not a power of two. (x.len(): " ++
            toString x.length ++ ")"), x) ∧
        sort x ord =
          (Except.error ("The length of x is not a power of two. (x.len(): " ++
            toString x.length ++ ")"), x)) ∧
    ((∃ k, x.length = 2 ^ k) →
      (sort_by x c).1 = Except.ok () ∧ (sort x ord).1 = Except.ok ()) := by
  constructor
  · intro hnp
    have hpow : is_power_of_two x.length = false := by
      rcases hb : is_power_of_two x.length with _ | _
      · rfl
      · exact absurd ((is_power_of_two_iff _).1 hb) hnp
    have hsb : ∀ c' : α → α → Ordering, sort_by x c' =
        (Except.error ("The length of x is not a power of two. (x.len(): " ++
          toString x.length ++ ")"), x) := by
      intro c'
      rw [sort_by, if_neg (by simp [hpow])]
    refine ⟨hsb c, ?_⟩
    cases ord
    · rw [sort_asc_def, hsb]
    · rw [sort_desc_def, hsb]
  · rintro ⟨k, hk⟩
    have hpow : is_power_of_two x.length = true := (is_power_of_two_iff _).2 ⟨k, hk⟩
    have hsb : ∀ c' : α → α → Ordering, (sort_by x c').1 = Except.ok () := by
      intro c'
      rw [sort_by, if_pos hpow]
    refine ⟨hsb c, ?_⟩
    cases ord
    · rw [sort_asc_def]
      exact hsb _
    · rw [sort_desc_def]
      exact hsb _

theorem C2_witness :
    (¬ ∃ k, ([10, 30, 11] : List ℕ).length = 2 ^ k) ∧
      ((¬ ∃ k, ([10, 30, 11] : List ℕ).length = 2 ^ k) →
        sort_by ([10, 30, 11] : List ℕ) (fun a b => compare a b) =
            (Except.error ("The length of x is not a power of two. (x.len(): " ++
              toString ([10, 30, 11] : List ℕ).length ++ ")"), [10, 30, 11]) ∧
          sort ([10, 30, 11] : List ℕ) SortOrder.Ascending =
            (Except.error ("The length of x is not a power of two. (x.len(): " ++
              toString ([10, 30, 11] : List ℕ).length ++ ")"), [10, 30, 11])) ∧
      ((∃ k, ([10, 30, 11] : List ℕ).length = 2 ^ k) →
        (sort_by ([10, 30, 11] : List ℕ) (fun a b => compare a b)).1 = Except.ok () ∧
          (sort ([10, 30, 11] : List ℕ) SortOrder.Ascending).1 = Except.ok ()) := by
  have hnp : ¬ ∃ k, ([10, 30, 11] : List ℕ).length = 2 ^ k := by
    rintro ⟨k, hk⟩
    simp only [List.length_cons, List.length_nil] at hk
    rcases k with _ | _ | k
    · simp at hk
    · simp at hk
    · have h4 : 4 ≤ 2 ^ (k + 2) := by
        calc 4 = 2 ^ 2 := by norm_num
          _ ≤ 2 ^ (k + 2) := Nat.pow_le_pow_right (by decide) (by omega)
      omega
  exact ⟨hnp, (C2_shape_error [10, 30, 11] (fun a b => compare a b) SortOrder.Ascending).1 hnp
    |> fun h => fun _ => h,
    (C2_shape_error [10, 30, 11] (fun a b => compare a b) SortOrder.Ascending).2⟩

/-- C3 counterexample: the empty list (length 0) is rejected, not accepted:
Rust's `is_power_of_two(0)` is `false`, so `sort`/`sort_by` return the error. -/
theorem C3_counterexample :
    (sort_by ([] : List ℕ) (fun a b => compare a b)).1 ≠ Except.ok () ∧
    (sort ([] : List ℕ) SortOrder.Ascending).1 ≠ Except.ok () ∧
    (sort ([] : List ℕ) SortOrder.Descending).1 ≠ Except.ok () := by
  have h : ∀ c' : ℕ → ℕ → Ordering, (sort_by ([] : List ℕ) c').1 ≠ Except.ok () := by
    intro c'
    rw [sort_by, if_neg (by simp [is_power_of_two_zero])]
    exact fun hcon => Except.noConfusion hcon
  exact ⟨h _, h _, h _⟩

/-- C3 amended: sequences of length 1 are accepted (`Ok(())`, unchanged);
the sequence of length 0 is rejected with the `ShapeError` and left
unchanged. -/
theorem C3_amended_length_one_only [LinearOrder α] (c : α → α → Ordering)
    (ord : SortOrder) (x : List α) (hx : x.length = 1) :
    sort_by x c = (Except.ok (), x) ∧
    sort x ord = (Except.ok (), x) ∧
    sort_by ([] : List α) c =
      (Except.error ("The length of x is not a power of two. (x.len(): " ++
        toString (0 : Nat) ++ ")"), ([] : List α)) ∧
    sort ([] : List α) ord =
      (Except.error ("The length of x is not a power of two. (x.len(): " ++
        toString (0 : Nat) ++ ")"), ([] : List α)) := by
  have hpow1 : is_power_of_two x.length = true := by
    rw [hx, is_power_of_two, count_ones_one]
    decide
  have hone : ∀ c' : α → α → Ordering, sort_by x c' = (Except.ok (), x) := by
    intro c'
    rw [sort_by, if_pos hpow1, do_sort_of_le (by omega)]
  have hnil : ∀ c' : α → α → Ordering, sort_by ([] : List α) c' =
      (Except.error ("The length of x is not a power of two. (x.len(): " ++
        toString (0 : Nat) ++ ")"), ([] : List α)) := by
    intro c'
    rw [sort_by, if_neg (by simp [is_power_of_two_zero])]
    rfl
  refine ⟨hone c, ?_, hnil c, ?_⟩
  · cases ord
    · rw [sort_asc_def, hone]
    · rw [sort_desc_def, hone]
  · cases ord
    · rw [sort_asc_def, hnil]
    · rw [sort_desc_def, hnil]

theorem C3_amended_witness :
    ([5] : List ℕ).length = 1 ∧
      (sort_by ([5] : List ℕ) (fun a b => compare a b) = (Except.ok (), [5]) ∧
        sort ([5] : List ℕ) SortOrder.Ascending = (Except.ok (), [5]) ∧
        sort_by ([] : List ℕ) (fun a b => compare a b) =
          (Except.error ("The length of x is not a power of two. (x.len(): " ++
            toString (0 : Nat) ++ ")"), ([] : List ℕ)) ∧
        sort ([] : List ℕ) SortOrder.Ascending =
          (Except.error ("The length of x is not a power of two. (x.len(): " ++
            toString (0 : Nat) ++ ")"), ([] : List ℕ))) :=
  ⟨rfl, C3_amended_length_one_only (fun a b => compare a b) SortOrder.Ascending [5] rfl⟩

/-- C4: for every slice longer than 1 and every caller direction, the builder
recurses on the lower half with direction `true` (ascending) and on the upper
half with direction `false` (descending) regardless of the caller's direction,
then merges the whole slice with the caller's direction; the merger recurses on
both halves with its own direction unchanged. -/
theorem C4_builder_flips_merger_keeps (c : α → α → Ordering) (f : Bool)
    (x : List α) (h : 1 < x.length) :
    do_sort x f c =
      sub_sort (do_sort (x.take (x.length / 2)) true c ++
        do_sort (x.drop (x.length / 2)) false c) f c ∧
    sub_sort x f c =
      sub_sort ((compare_and_swap x f c).take (x.length / 2)) f c ++
        sub_sort ((compare_and_swap x f c).drop (x.length / 2)) f c :=
  ⟨do_sort_of_lt h f c, sub_sort_of_lt h f c⟩

theorem C4_witness :
    1 < ([3, 1] : List ℕ).length ∧
      (do_sort ([3, 1] : List ℕ) false (fun a b => compare a b) =
        sub_sort (do_sort (([3, 1] : List ℕ).take (([3, 1] : List ℕ).length / 2)) true
            (fun a b => compare a b) ++
          do_sort (([3, 1] : List ℕ).drop (([3, 1] : List ℕ).length / 2)) false
            (fun a b => compare a b)) false (fun a b => compare a b) ∧
      sub_sort ([3, 1] : List ℕ) false (fun a b => compare a b) =
        sub_sort ((compare_and_swap ([3, 1] : List ℕ) false (fun a b => compare a b)).take
            (([3, 1] : List ℕ).length / 2)) false (fun a b => compare a b) ++
          sub_sort ((compare_and_swap ([3, 1] : List ℕ) false (fun a b => compare a b)).drop
            (([3, 1] : List ℕ).length / 2)) false (fun a b => compare a b)) :=
  ⟨by decide, C4_builder_flips_merger_keeps (fun a b => compare a b) false [3, 1] (by decide)⟩


/-- C5: on a bitonic slice of power-of-two length, the merger `sub_sort`
rearranges the slice in place into a monotonic permutation: non-decreasing for
`forward = true`, non-increasing for `forward = false`, with respect to the
total order described by the comparator. -/
theorem C5_merger_sorts_bitonic (c : α → α → Ordering) [Batteries.TransCmp c]
    (k : Nat) (x : List α) (hx : x.length = 2 ^ k) (hbit : Bitonic c x) :
    ((sub_sort x true c).Perm x ∧ SortedLe c (sub_sort x true c)) ∧
    ((sub_sort x false c).Perm x ∧ SortedGe c (sub_sort x false c)) :=
  ⟨⟨sub_sort_perm c true k x hx, sub_sort_sortedLe c k x hx hbit⟩,
    ⟨sub_sort_perm c false k x hx, sub_sort_sortedGe c k x hx hbit⟩⟩

theorem C5_witness :
    (([1, 3, 2, 0] : List ℕ).length = 2 ^ 2 ∧
        Bitonic (fun a b : ℕ => compare a b) [1, 3, 2, 0]) ∧
      (((sub_sort ([1, 3, 2, 0] : List ℕ) true (fun a b => compare a b)).Perm [1, 3, 2, 0] ∧
          SortedLe (fun a b : ℕ => compare a b)
            (sub_sort ([1, 3, 2, 0] : List ℕ) true (fun a b => compare a b))) ∧
        ((sub_sort ([1, 3, 2, 0] : List ℕ) false (fun a b => compare a b)).Perm [1, 3, 2, 0] ∧
          SortedGe (fun a b : ℕ => compare a b)
            (sub_sort ([1, 3, 2, 0] : List ℕ) false (fun a b => compare a b)))) := by
  have hbit : Bitonic (fun a b : ℕ => compare a b) [1, 3, 2, 0] := by
    refine ⟨[], [1, 3, 2, 0], [1, 3], [2, 0], rfl, by decide, ?_, ?_⟩
    · rw [SortedLe]
      decide
    · rw [SortedGe]
      decide
  exact ⟨⟨by decide, hbit⟩,
    C5_merger_sorts_bitonic (fun a b => compare a b) 2 [1, 3, 2, 0] (by decide) hbit⟩

/-- C6: on a slice of even length `2 * m`, `compare_and_swap` compares element
`i` with element `m + i` for each `i < m`, using `swap_condition = gt` when
ascending and `lt` when descending, and exchanges the pair exactly when the
comparator returns `swap_condition` (in particular a pair comparing `eq` is
left untouched). -/
theorem C6_compare_and_swap_pairs (c : α → α → Ordering) (f : Bool) (x : List α)
    (m : Nat) (hx : x.length = 2 * m) (i : Nat) (him : i < m) :
    swap_condition f = (if f then Ordering.gt else Ordering.lt) ∧
    (compare_and_swap x f c)[i]? =
      (x[i]?.bind fun a => x[m + i]?.map fun b =>
        if c a b = swap_condition f then b else a) ∧
    (compare_and_swap x f c)[m + i]? =
      (x[i]?.bind fun a => x[m + i]?.map fun b =>
        if c a b = swap_condition f then a else b) := by
  have hmid : x.length / 2 = m := by omega
  have key := cas_loop_getElem? c (swap_condition f) (m := m) (x := x) m le_rfl (by omega)
  refine ⟨rfl, ?_, ?_⟩
  · rw [compare_and_swap_def, hmid, key i, if_pos him]
  · rw [compare_and_swap_def, hmid, key (m + i), if_neg (by omega), if_pos (by omega),
      (by omega : m + i - m = i)]

theorem C6_witness :
    (([2, 1] : List ℕ).length = 2 * 1 ∧ 0 < 1) ∧
      (swap_condition true = (if true then Ordering.gt else Ordering.lt) ∧
        (compare_and_swap ([2, 1] : List ℕ) true (fun a b => compare a b))[0]? =
          ((([2, 1] : List ℕ)[0]?).bind fun a => (([2, 1] : List ℕ)[1 + 0]?).map fun b =>
            if compare a b = swap_condition true then b else a) ∧
        (compare_and_swap ([2, 1] : List ℕ) true (fun a b => compare a b))[1 + 0]? =
          ((([2, 1] : List ℕ)[0]?).bind fun a => (([2, 1] : List ℕ)[1 + 0]?).map fun b =>
            if compare a b = swap_condition true then a else b)) :=
  ⟨⟨by decide, by decide⟩,
    C6_compare_and_swap_pairs (fun a b => compare a b) true [2, 1] 1 (by decide) 0 (by decide)⟩

/-- C7: the threshold-switching program computes exactly the same function as
its fully sequential embedding: the result does not depend on whether the
parallel or the sequential branch is taken. -/
theorem C7_parallel_equals_sequential (c : α → α → Ordering) (f : Bool) (x : List α) :
    do_sort x f c = do_sort_seq x f c ∧ sub_sort x f c = sub_sort_seq x f c :=
  ⟨do_sort_eq_seq x f c, sub_sort_eq_seq x f c⟩

/-- C8: for every input and every comparator, whatever `sort_by` or `sort`
returns, the final contents of the slice are a permutation of the original
contents. -/
theorem C8_multiset_preserved [LinearOrder α] (x : List α) (c : α → α → Ordering)
    (ord : SortOrder) :
    ((sort_by x c).2).Perm x ∧ ((sort x ord).2).Perm x := by
  refine ⟨sort_by_perm x c, ?_⟩
  cases ord
  · rw [sort_asc_def]
    exact sort_by_perm x _
  · rw [sort_desc_def]
    exact sort_by_perm x _

/-- C9: the concrete scenario from the tests: sorting
`[10, 30, 11, 20, 4, 330, 21, 110]` ascending yields
`[4, 10, 11, 20, 21, 30, 110, 330]` with `Ok(())`, and descending yields the
exact reverse. -/
theorem C9_concrete_scenario :
    sort ([10, 30, 11, 20, 4, 330, 21, 110] : List ℕ) SortOrder.Ascending =
      (Except.ok (), [4, 10, 11, 20, 21, 30, 110, 330]) ∧
    sort ([10, 30, 11, 20, 4, 330, 21, 110] : List ℕ) SortOrder.Descending =
      (Except.ok (), [330, 110, 30, 21, 20, 11, 10, 4]) := by
  obtain ⟨ha, hap, has, hd, hdp, hds⟩ :=
    sort_spec ([10, 30, 11, 20, 4, 330, 21, 110] : List ℕ) 3 (by decide)
  constructor
  · rw [ha]
    have : do_sort ([10, 30, 11, 20, 4, 330, 21, 110] : List ℕ) true
        (fun a b => compare a b) = [4, 10, 11, 20, 21, 30, 110, 330] := by
      exact List.eq_of_perm_of_sorted (hap.trans (by decide)) has (by decide)
    rw [this]
  · rw [hd]
    haveI : IsAntisymm ℕ (· ≥ ·) := ⟨fun a b h1 h2 => le_antisymm h2 h1⟩
    have : do_sort ([10, 30, 11, 20, 4, 330, 21, 110] : List ℕ) true
        (fun a b => compare b a) = [330, 110, 30, 21, 20, 11, 10, 4] := by
      exact List.eq_of_perm_of_sorted (hdp.trans (by decide)) hds (by decide)
    rw [this]

/-- C10: termination of the recursion: when the slice is longer than 1,
each recursive call of the builder and the merger operates on a strictly
shorter slice (a half), and the embedded `do_sort`/`sub_sort` are total
functions satisfying their recursive equations. -/
theorem C10_recursion_terminates (c : α → α → Ordering) (f : Bool) (x : List α)
    (h : 1 < x.length) :
    (x.take (x.length / 2)).length < x.length ∧
    (x.drop (x.length / 2)).length < x.length ∧
    ((compare_and_swap x f c).take (x.length / 2)).length < x.length ∧
    ((compare_and_swap x f c).drop (x.length / 2)).length < x.length ∧
    do_sort x f c =
      sub_sort (do_sort (x.take (x.length / 2)) true c ++
        do_sort (x.drop (x.length / 2)) false c) f c ∧
    sub_sort x f c =
      sub_sort ((compare_and_swap x f c).take (x.length / 2)) f c ++
        sub_sort ((compare_and_swap x f c).drop (x.length / 2)) f c := by
  refine ⟨?_, ?_, ?_, ?_, do_sort_of_lt h f c, sub_sort_of_lt h f c⟩
  · rw [List.length_take]
    omega
  · rw [List.length_drop]
    omega
  · rw [List.length_take, length_compare_and_swap]
    omega
  · rw [List.length_drop, length_compare_and_swap]
    omega

theorem C10_witness :
    1 < ([4, 2] : List ℕ).length ∧
      ((([4, 2] : List ℕ).take (([4, 2] : List ℕ).length / 2)).length <
          ([4, 2] : List ℕ).length ∧
        (([4, 2] : List ℕ).drop (([4, 2] : List ℕ).length / 2)).length <
          ([4, 2] : List ℕ).length ∧
        ((compare_and_swap ([4, 2] : List ℕ) true (fun a b => compare a b)).take
            (([4, 2] : List ℕ).length / 2)).length < ([4, 2] : List ℕ).length ∧
        ((compare_and_swap ([4, 2] : List ℕ) true (fun a b => compare a b)).drop
            (([4, 2] : List ℕ).length / 2)).length < ([4, 2] : List ℕ).length ∧
        do_sort ([4, 2] : List ℕ) true (fun a b => compare a b) =
          sub_sort (do_sort (([4, 2] : List ℕ).take (([4, 2] : List ℕ).length / 2)) true
              (fun a b => compare a b) ++
            do_sort (([4, 2] : List ℕ).drop (([4, 2] : List ℕ).length / 2)) false
              (fun a b => compare a b)) true (fun a b => compare a b) ∧
        sub_sort ([4, 2] : List ℕ) true (fun a b => compare a b) =
          sub_sort ((compare_and_swap ([4, 2] : List ℕ) true (fun a b => compare a b)).take
              (([4, 2] : List ℕ).length / 2)) true (fun a b => compare a b) ++
            sub_sort ((compare_and_swap ([4, 2] : List ℕ) true (fun a b => compare a b)).drop
              (([4, 2] : List ℕ).length / 2)) true (fun a b => compare a b)) :=
  ⟨by decide, C10_recursion_terminates (fun a b => compare a b) true [4, 2] (by decide)⟩

end Fourth
